import Mathlib

/-!
Shallow embedding of `src/consistent_hashing_demo.py` (class `SimpleConsistentHash`).

The Python code keeps two fields: `self.nodes`, a set of node identifiers, and
`self.hash_ring`, a dict from hash positions to node identifiers.  Python dicts
are modelled as association lists with insertion-order semantics: assignment to
an existing key updates it in place, assignment to a fresh key appends, and
`pop(k, None)` removes the entry for `k` if present.  Python's process-specific
built-in `hash` is modelled as a parameter `H : String → Int`; the method
`_hash` computes `hash(key) % 1000` with Python's `%` (Lean's `Int.emod`, which
agrees with Python on positive moduli).  `remove_node` pops the three virtual
positions BEFORE `self.nodes.remove(node)` runs, and the latter raises KeyError
when the node is untracked; the model therefore returns the (possibly mutated)
state together with a Bool that is `true` exactly when the call raised.
-/

/-- A Python dict from hash positions to node names, as an insertion-ordered
association list. -/
abbrev Dict := List (Int × String)

/-- `d[key]` as an option: the value at the first entry whose key matches. -/
def dictLookup : Dict → Int → Option String
  | [], _ => none
  | (k, v) :: rest, key => if k = key then some v else dictLookup rest key

/-- `d[key] = val`: update in place if the key exists, else append (Python dict
assignment preserves insertion order). -/
def dictInsert : Dict → Int → String → Dict
  | [], key, val => [(key, val)]
  | (k, v) :: rest, key, val =>
      if k = key then (key, val) :: rest else (k, v) :: dictInsert rest key val

/-- `d.pop(key, None)`: remove the entry for `key` if present, else no-op. -/
def dictPop : Dict → Int → Dict
  | [], _ => []
  | (k, v) :: rest, key => if k = key then rest else (k, v) :: dictPop rest key

/-- `d.keys()` in insertion order. -/
def dictKeys (d : Dict) : List Int := d.map Prod.fst

/-- The state of a `SimpleConsistentHash` object: the physical-node set and the
hash ring. -/
structure SimpleConsistentHash where
  nodes : Finset String
  hash_ring : Dict
deriving DecidableEq

/-- `SimpleConsistentHash._hash`: `hash(key) % 1000`, with Python's built-in
`hash` abstracted as the parameter `H`. -/
def _hash (H : String → Int) (key : String) : Int := H key % 1000

/-- The virtual-node string `f"{node}:{i}"`. -/
def vnode (node : String) (i : Nat) : String := node ++ ":" ++ toString i

/-- `SimpleConsistentHash.add_node`: for `i in range(3)` set
`ring[_hash(f"{node}:{i}")] = node`, then add `node` to the node set. -/
def add_node (H : String → Int) (s : SimpleConsistentHash) (node : String) :
    SimpleConsistentHash :=
  let r0 := dictInsert s.hash_ring (_hash H (vnode node 0)) node
  let r1 := dictInsert r0 (_hash H (vnode node 1)) node
  let r2 := dictInsert r1 (_hash H (vnode node 2)) node
  { nodes := insert node s.nodes, hash_ring := r2 }

/-- `SimpleConsistentHash.remove_node`: for `i in range(3)` pop
`_hash(f"{node}:{i}")` from the ring, then `self.nodes.remove(node)`, which
raises KeyError when `node` is untracked.  Returns the resulting state and
`true` iff the call raised; note the ring pops happen before the raise. -/
def remove_node (H : String → Int) (s : SimpleConsistentHash) (node : String) :
    SimpleConsistentHash × Bool :=
  let r0 := dictPop s.hash_ring (_hash H (vnode node 0))
  let r1 := dictPop r0 (_hash H (vnode node 1))
  let r2 := dictPop r1 (_hash H (vnode node 2))
  if node ∈ s.nodes then
    ({ nodes := s.nodes.erase node, hash_ring := r2 }, false)
  else
    ({ s with hash_ring := r2 }, true)

/-- `SimpleConsistentHash.get_node`: `None` on an empty ring; otherwise scan the
sorted occupied positions for the first one `≥ hash(key)`, wrapping to the
smallest position when the scan fails. -/
def get_node (H : String → Int) (s : SimpleConsistentHash) (key : String) :
    Option String :=
  if s.hash_ring.isEmpty then none
  else
    let hash_key := _hash H key
    let sorted_positions := (dictKeys s.hash_ring).insertionSort (· ≤ ·)
    match sorted_positions.find? (fun pos => decide (hash_key ≤ pos)) with
    | some pos => dictLookup s.hash_ring pos
    | none => dictLookup s.hash_ring (sorted_positions.headD 0)

/-- `SimpleConsistentHash.__init__`: start empty, then `add_node` each element
of the optional initial node list in order. -/
def construct (H : String → Int) (nodes : List String) : SimpleConsistentHash :=
  nodes.foldl (fun s n => add_node H s n) ⟨∅, []⟩

/-- States reachable from a freshly constructed empty ring by any sequence of
`add_node`, `remove_node` (including raising calls) and `get_node` calls
(`get_node` does not change the state). -/
inductive Reachable (H : String → Int) : SimpleConsistentHash → Prop where
  | init : Reachable H ⟨∅, []⟩
  | add {s : SimpleConsistentHash} (n : String) :
      Reachable H s → Reachable H (add_node H s n)
  | remove {s : SimpleConsistentHash} (n : String) :
      Reachable H s → Reachable H (remove_node H s n).1

/-- Invariant maintained by every reachable state: the ring's keys are
duplicate free, and every ring entry `(p, m)` has a registered owner `m` with
`p` one of `m`'s three virtual positions. -/
def RingInv (H : String → Int) (s : SimpleConsistentHash) : Prop :=
  (dictKeys s.hash_ring).Nodup ∧
  ∀ e ∈ s.hash_ring, e.2 ∈ s.nodes ∧ ∃ i, i < 3 ∧ e.1 = _hash H (vnode e.2 i)

/-! ### Concrete hash functions and states used as witnesses and counterexamples.
Python's built-in `hash` is process specific; each table below is one possible
run's hash restricted to the finitely many strings the scenario touches. -/

/-- The fixed hash table of the spec's concrete scenario (§8), extended with two
probe keys and a third node. -/
def H6 : String → Int := fun s =>
  if s = "node1:0" then 12 else if s = "node1:1" then 340
  else if s = "node1:2" then 780 else if s = "node2:0" then 55
  else if s = "node2:1" then 410 else if s = "node2:2" then 920
  else if s = "node3:0" then 100 else if s = "node3:1" then 200
  else if s = "node3:2" then 300 else if s = "k400" then 400
  else if s = "k950" then 950 else 0

/-- The spec's concrete ring: seeded with `["node1", "node2"]` under `H6`. -/
def s6 : SimpleConsistentHash := construct H6 ["node1", "node2"]

/-- A hash table where the untracked node `ghost` shares virtual position 12
with tracked node `A`. -/
def Hghost : String → Int := fun s =>
  if s = "A:0" then 12 else if s = "A:1" then 340
  else if s = "A:2" then 780 else if s = "ghost:0" then 12 else 0

/-- Ring holding only node `A` under `Hghost`. -/
def sGhost : SimpleConsistentHash := add_node Hghost ⟨∅, []⟩ "A"

/-- A hash table where nodes `A` and `B` collide on all three virtual
positions. -/
def Hcollide : String → Int := fun s =>
  if s = "A:0" then 10 else if s = "B:0" then 10
  else if s = "A:1" then 20 else if s = "B:1" then 20
  else if s = "A:2" then 30 else if s = "B:2" then 30 else 0

/-- Reachable state with a non-empty node set but an empty ring: add `A`, add
`B` (overwriting all of `A`'s positions), then remove `A` (popping them). -/
def sCollide : SimpleConsistentHash :=
  (remove_node Hcollide (add_node Hcollide (add_node Hcollide ⟨∅, []⟩ "A") "B") "A").1

/-- A hash table where `A` and `B` collide on position 5 only. -/
def Hdup : String → Int := fun s =>
  if s = "A:0" then 5 else if s = "B:0" then 5
  else if s = "A:1" then 6 else if s = "A:2" then 7
  else if s = "B:1" then 8 else if s = "B:2" then 9 else 0

/-- Ring with `A` added, then `B` (whose virtual node `B:0` overwrote position
5, previously owned by `A`). -/
def sDup : SimpleConsistentHash := add_node Hdup (add_node Hdup ⟨∅, []⟩ "A") "B"

/-! ### Association-list (dict) lemmas -/

theorem dictLookup_eq_none_iff (d : Dict) (k : Int) :
    dictLookup d k = none ↔ k ∉ dictKeys d := by
  induction d with
  | nil => simp [dictLookup, dictKeys]
  | cons e rest ih =>
    obtain ⟨k', v'⟩ := e
    by_cases h : k' = k
    · subst h
      simp [dictLookup, dictKeys]
    · simp [dictLookup, dictKeys, h, Ne.symm h] at ih ⊢
      simpa [dictKeys] using ih

theorem dictLookup_isSome (d : Dict) (k : Int) (h : k ∈ dictKeys d) :
    ∃ v, dictLookup d k = some v := by
  cases hl : dictLookup d k with
  | none => exact absurd ((dictLookup_eq_none_iff d k).1 hl) (by simpa using h)
  | some v => exact ⟨v, rfl⟩

theorem dictLookup_mem (d : Dict) (k : Int) (v : String)
    (h : dictLookup d k = some v) : (k, v) ∈ d := by
  induction d with
  | nil => simp [dictLookup] at h
  | cons e rest ih =>
    obtain ⟨k', v'⟩ := e
    by_cases hk : k' = k
    · subst hk
      simp [dictLookup] at h
      subst h
      exact List.mem_cons_self _ _
    · simp [dictLookup, hk] at h
      exact List.mem_cons_of_mem _ (ih h)

theorem mem_dictInsert (d : Dict) (k : Int) (v : String) (e : Int × String)
    (h : e ∈ dictInsert d k v) : e = (k, v) ∨ e ∈ d := by
  induction d with
  | nil => simpa [dictInsert] using h
  | cons e' rest ih =>
    obtain ⟨k', v'⟩ := e'
    by_cases hk : k' = k
    · subst hk
      simp [dictInsert] at h
      rcases h with h | h
      · exact Or.inl h
      · exact Or.inr (List.mem_cons_of_mem _ h)
    · simp [dictInsert, hk] at h
      rcases h with h | h
      · exact Or.inr (by simp [h])
      · rcases ih h with h' | h'
        · exact Or.inl h'
        · exact Or.inr (List.mem_cons_of_mem _ h')

theorem dictInsert_ne_nil (d : Dict) (k : Int) (v : String) :
    dictInsert d k v ≠ [] := by
  cases d with
  | nil => simp [dictInsert]
  | cons e rest =>
    obtain ⟨k', v'⟩ := e
    by_cases hk : k' = k <;> simp [dictInsert, hk]

theorem dictInsert_of_lookup_some (d : Dict) (k : Int) (v : String)
    (h : dictLookup d k = some v) : dictInsert d k v = d := by
  induction d with
  | nil => simp [dictLookup] at h
  | cons e rest ih =>
    obtain ⟨k', v'⟩ := e
    by_cases hk : k' = k
    · subst hk
      simp [dictLookup] at h
      simp [dictInsert, h]
    · simp [dictLookup, hk] at h
      simp [dictInsert, hk, ih h]

theorem dictInsert_append_right (d e : Dict) (k : Int) (v : String)
    (h : k ∉ dictKeys d) : dictInsert (d ++ e) k v = d ++ dictInsert e k v := by
  induction d with
  | nil => simp
  | cons e' rest ih =>
    obtain ⟨k', v'⟩ := e'
    simp only [dictKeys, List.map_cons, List.mem_cons, not_or] at h
    have hk : ¬k' = k := fun hh => h.1 hh.symm
    simp [dictInsert, hk, ih (by simpa [dictKeys] using h.2)]

theorem dictPop_append_right (d e : Dict) (k : Int)
    (h : k ∉ dictKeys d) : dictPop (d ++ e) k = d ++ dictPop e k := by
  induction d with
  | nil => simp
  | cons e' rest ih =>
    obtain ⟨k', v'⟩ := e'
    simp only [dictKeys, List.map_cons, List.mem_cons, not_or] at h
    have hk : ¬k' = k := fun hh => h.1 hh.symm
    simp [dictPop, hk, ih (by simpa [dictKeys] using h.2)]

theorem dictPop_of_not_mem (d : Dict) (k : Int)
    (h : k ∉ dictKeys d) : dictPop d k = d := by
  induction d with
  | nil => simp [dictPop]
  | cons e rest ih =>
    obtain ⟨k', v'⟩ := e
    simp only [dictKeys, List.map_cons, List.mem_cons, not_or] at h
    have hk : ¬k' = k := fun hh => h.1 hh.symm
    simp [dictPop, hk, ih (by simpa [dictKeys] using h.2)]

theorem dictKeys_dictPop_sublist (d : Dict) (k : Int) :
    (dictKeys (dictPop d k)).Sublist (dictKeys d) := by
  induction d with
  | nil => simp [dictPop, dictKeys]
  | cons e rest ih =>
    obtain ⟨k', v'⟩ := e
    by_cases hk : k' = k
    · simp [dictPop, hk, dictKeys]
    · simp only [dictPop, if_neg hk, dictKeys, List.map_cons]
      exact List.Sublist.cons₂ _ ih

theorem mem_dictPop (d : Dict) (k : Int) (e : Int × String)
    (h : e ∈ dictPop d k) : e ∈ d := by
  induction d with
  | nil => simp [dictPop] at h
  | cons e' rest ih =>
    obtain ⟨k', v'⟩ := e'
    by_cases hk : k' = k
    · simp [dictPop, hk] at h
      exact List.mem_cons_of_mem _ h
    · simp [dictPop, hk] at h
      rcases h with h | h
      · simp [h]
      · exact List.mem_cons_of_mem _ (ih h)

theorem mem_dictPop_ne (d : Dict) (k : Int) (e : Int × String)
    (hnd : (dictKeys d).Nodup) (h : e ∈ dictPop d k) : e ∈ d ∧ e.1 ≠ k := by
  induction d with
  | nil => simp [dictPop] at h
  | cons e' rest ih =>
    obtain ⟨k', v'⟩ := e'
    simp only [dictKeys, List.map_cons, List.nodup_cons] at hnd
    by_cases hk : k' = k
    · subst hk
      simp only [dictPop, if_pos rfl] at h
      refine ⟨List.mem_cons_of_mem _ h, ?_⟩
      intro hek
      exact hnd.1 (by simpa [hek] using List.mem_map_of_mem Prod.fst h)
    · simp only [dictPop, if_neg hk] at h
      rcases List.mem_cons.1 h with h' | h'
      · exact ⟨by simp [h'], by simp [h', hk]⟩
      · have := ih hnd.2 h'
        exact ⟨List.mem_cons_of_mem _ this.1, this.2⟩

theorem dictKeys_dictInsert (d : Dict) (k : Int) (v : String) :
    dictKeys (dictInsert d k v) =
      if k ∈ dictKeys d then dictKeys d else dictKeys d ++ [k] := by
  induction d with
  | nil => simp [dictInsert, dictKeys]
  | cons e rest ih =>
    obtain ⟨k', v'⟩ := e
    by_cases hk : k' = k
    · subst hk
      simp [dictInsert, dictKeys]
    · simp only [dictInsert, if_neg hk, dictKeys, List.map_cons, List.mem_cons] at ih ⊢
      rw [ih]
      by_cases hm : k ∈ List.map Prod.fst rest
      · simp [hm, Ne.symm hk]
      · simp [hm, Ne.symm hk]

theorem nodup_keys_dictInsert (d : Dict) (k : Int) (v : String)
    (h : (dictKeys d).Nodup) : (dictKeys (dictInsert d k v)).Nodup := by
  rw [dictKeys_dictInsert]
  by_cases hm : k ∈ dictKeys d
  · simpa [hm] using h
  · simp only [if_neg hm]
    simpa [List.nodup_append] using ⟨h, hm⟩

/-! ### Sorted-scan lemmas for the successor lookup -/

theorem find_sorted_min (l : List Int) (hk p : Int)
    (hs : l.Sorted (· ≤ ·))
    (hf : l.find? (fun pos => decide (hk ≤ pos)) = some p) :
    hk ≤ p ∧ p ∈ l ∧ ∀ q ∈ l, hk ≤ q → p ≤ q := by
  induction l with
  | nil => simp at hf
  | cons a t ih =>
    by_cases hka : hk ≤ a
    · rw [List.find?_cons_of_pos _ (by simpa using hka)] at hf
      obtain rfl : a = p := by simpa using hf
      refine ⟨hka, List.mem_cons_self _ _, ?_⟩
      intro q hq _
      rcases List.mem_cons.1 hq with rfl | hq
      · exact le_refl _
      · exact List.rel_of_sorted_cons hs q hq
    · rw [List.find?_cons_of_neg _ (by simpa using hka)] at hf
      obtain ⟨h1, h2, h3⟩ := ih hs.of_cons hf
      refine ⟨h1, List.mem_cons_of_mem _ h2, ?_⟩
      intro q hq hkq
      rcases List.mem_cons.1 hq with rfl | hq
      · exact absurd hkq hka
      · exact h3 q hq hkq

theorem head_sorted_min (a : Int) (t : List Int)
    (hs : (a :: t).Sorted (· ≤ ·)) : ∀ q ∈ a :: t, a ≤ q := by
  intro q hq
  rcases List.mem_cons.1 hq with rfl | hq
  · exact le_refl _
  · exact List.rel_of_sorted_cons hs q hq

theorem get_node_unfold (H : String → Int) (s : SimpleConsistentHash)
    (key : String) (hne : s.hash_ring.isEmpty = false) :
    get_node H s key =
      match ((dictKeys s.hash_ring).insertionSort (· ≤ ·)).find?
          (fun pos => decide (_hash H key ≤ pos)) with
      | some pos => dictLookup s.hash_ring pos
      | none =>
          dictLookup s.hash_ring
            (((dictKeys s.hash_ring).insertionSort (· ≤ ·)).headD 0) := by
  simp only [get_node, hne, Bool.false_eq_true, if_false]

theorem hash_ring_isEmpty_false (s : SimpleConsistentHash)
    (hne : s.hash_ring ≠ []) : s.hash_ring.isEmpty = false := by
  cases h : s.hash_ring with
  | nil => exact absurd h hne
  | cons e rest => simp [List.isEmpty]

/-! ### Claim theorems -/

/-- C1: for every non-empty ring and every key, `get_node key` returns the node
stored at the smallest occupied ring position that is `≥ hash(key)` (inclusive
comparison), and if no occupied position is `≥ hash(key)` it returns the node
at the smallest occupied position overall (wrap-around). -/
theorem get_node_clockwise_successor (H : String → Int) (s : SimpleConsistentHash)
    (key : String) (hne : s.hash_ring ≠ []) :
    ((∃ q ∈ dictKeys s.hash_ring, _hash H key ≤ q) →
      ∃ p ∈ dictKeys s.hash_ring, _hash H key ≤ p ∧
        (∀ q ∈ dictKeys s.hash_ring, _hash H key ≤ q → p ≤ q) ∧
        get_node H s key = dictLookup s.hash_ring p ∧
        (dictLookup s.hash_ring p).isSome) ∧
    ((∀ q ∈ dictKeys s.hash_ring, q < _hash H key) →
      ∃ p ∈ dictKeys s.hash_ring, (∀ q ∈ dictKeys s.hash_ring, p ≤ q) ∧
        get_node H s key = dictLookup s.hash_ring p ∧
        (dictLookup s.hash_ring p).isSome) := by
  have hemp := hash_ring_isEmpty_false s hne
  have hunf := get_node_unfold H s key hemp
  have hsorted := List.sorted_insertionSort (· ≤ ·) (dictKeys s.hash_ring)
  have hmemiff : ∀ q : Int,
      q ∈ (dictKeys s.hash_ring).insertionSort (· ≤ ·) ↔ q ∈ dictKeys s.hash_ring :=
    fun q => List.mem_insertionSort _
  constructor
  · rintro ⟨q0, hq0, hle⟩
    cases hfind : ((dictKeys s.hash_ring).insertionSort (· ≤ ·)).find?
        (fun pos => decide (_hash H key ≤ pos)) with
    | none =>
      have hno := List.find?_eq_none.1 hfind q0 ((hmemiff q0).2 hq0)
      simp only [decide_eq_true_eq] at hno
      exact absurd hle hno
    | some pos =>
      obtain ⟨h1, h2, h3⟩ := find_sorted_min _ _ _ hsorted hfind
      obtain ⟨v, hv⟩ := dictLookup_isSome s.hash_ring pos ((hmemiff pos).1 h2)
      refine ⟨pos, (hmemiff pos).1 h2, h1, ?_, ?_, ?_⟩
      · intro q hq hkq
        exact h3 q ((hmemiff q).2 hq) hkq
      · rw [hunf, hfind]
      · simp [hv]
  · intro hall
    cases hfind : ((dictKeys s.hash_ring).insertionSort (· ≤ ·)).find?
        (fun pos => decide (_hash H key ≤ pos)) with
    | some pos =>
      obtain ⟨h1, h2, _⟩ := find_sorted_min _ _ _ hsorted hfind
      exact absurd h1 (not_le.2 (hall pos ((hmemiff pos).1 h2)))
    | none =>
      obtain ⟨a, t, hlist⟩ :
          ∃ a t, (dictKeys s.hash_ring).insertionSort (· ≤ ·) = a :: t := by
        cases hl : (dictKeys s.hash_ring).insertionSort (· ≤ ·) with
        | nil =>
          exfalso
          have hperm := List.perm_insertionSort (· ≤ ·) (dictKeys s.hash_ring)
          rw [hl] at hperm
          have hkeys : dictKeys s.hash_ring = [] := hperm.symm.eq_nil
          exact hne (by simpa [dictKeys, List.map_eq_nil_iff] using hkeys)
        | cons a t => exact ⟨a, t, rfl⟩
      have hamem : a ∈ dictKeys s.hash_ring :=
        (hmemiff a).1 (by rw [hlist]; exact List.mem_cons_self _ _)
      have hmin : ∀ q ∈ dictKeys s.hash_ring, a ≤ q := by
        intro q hq
        have hq' : q ∈ a :: t := by rw [← hlist]; exact (hmemiff q).2 hq
        exact head_sorted_min a t (hlist ▸ hsorted) q hq'
      obtain ⟨v, hv⟩ := dictLookup_isSome s.hash_ring a hamem
      refine ⟨a, hamem, hmin, ?_, by simp [hv]⟩
      rw [hunf, hfind, hlist]
      rfl

/-- C1 witness: in the spec's concrete ring, the key hashing to 400 is served
by the occupied position 410 (the least position `≥ 400`). -/
theorem get_node_clockwise_successor_witness :
    ∃ p ∈ dictKeys s6.hash_ring, _hash H6 "k400" ≤ p ∧
      (∀ q ∈ dictKeys s6.hash_ring, _hash H6 "k400" ≤ q → p ≤ q) ∧
      get_node H6 s6 "k400" = dictLookup s6.hash_ring p ∧
      (dictLookup s6.hash_ring p).isSome :=
  (get_node_clockwise_successor H6 s6 "k400" (by decide)).1 (by decide)

/-- Helper: on a non-empty ring, `get_node` always returns the value stored at
some occupied position. -/
theorem get_node_mem (H : String → Int) (s : SimpleConsistentHash) (key : String)
    (hne : s.hash_ring ≠ []) :
    ∃ p ∈ dictKeys s.hash_ring, get_node H s key = dictLookup s.hash_ring p := by
  have hemp := hash_ring_isEmpty_false s hne
  have hunf := get_node_unfold H s key hemp
  cases hfind : ((dictKeys s.hash_ring).insertionSort (· ≤ ·)).find?
      (fun pos => decide (_hash H key ≤ pos)) with
  | some pos =>
    have hmem : pos ∈ (dictKeys s.hash_ring).insertionSort (· ≤ ·) :=
      List.mem_of_find?_eq_some hfind
    exact ⟨pos, (List.mem_insertionSort _).1 hmem, by rw [hunf, hfind]⟩
  | none =>
    cases hl : (dictKeys s.hash_ring).insertionSort (· ≤ ·) with
    | nil =>
      exfalso
      have hperm := List.perm_insertionSort (· ≤ ·) (dictKeys s.hash_ring)
      rw [hl] at hperm
      exact hne (by simpa [dictKeys, List.map_eq_nil_iff] using hperm.symm.eq_nil)
    | cons a t =>
      refine ⟨a, ?_, ?_⟩
      · exact (List.mem_insertionSort _).1 (by rw [hl]; exact List.mem_cons_self _ _)
      · rw [hunf, hfind, hl]
        rfl

/-- Helper: on a non-empty ring, `get_node` never returns `none`. -/
theorem get_node_isSome_of_ne_nil (H : String → Int) (s : SimpleConsistentHash)
    (key : String) (hne : s.hash_ring ≠ []) : ∃ m, get_node H s key = some m := by
  obtain ⟨p, hp, he⟩ := get_node_mem H s key hne
  obtain ⟨v, hv⟩ := dictLookup_isSome s.hash_ring p hp
  exact ⟨v, he.trans hv⟩

/-- C5: `get_node` returns absent exactly on the empty ring — it is `none` when
the ring mapping is empty, and after `add_node n` on any state, `get_node k`
never returns `none` for any key. -/
theorem get_node_empty_and_coverage (H : String → Int) :
    (∀ (s : SimpleConsistentHash) (key : String),
        s.hash_ring = [] → get_node H s key = none) ∧
    (∀ (s : SimpleConsistentHash) (n key : String),
        ∃ m, get_node H (add_node H s n) key = some m) := by
  constructor
  · intro s key h
    simp [get_node, h]
  · intro s n key
    apply get_node_isSome_of_ne_nil
    show dictInsert _ _ _ ≠ []
    exact dictInsert_ne_nil _ _ _

/-- C5 witness: the empty ring has no owner for `"k400"`, and after adding
`node3` to the spec's concrete ring every key has an owner. -/
theorem get_node_empty_and_coverage_witness :
    get_node H6 ⟨∅, []⟩ "k400" = none ∧
    ∃ m, get_node H6 (add_node H6 s6 "node3") "k400" = some m :=
  ⟨(get_node_empty_and_coverage H6).1 ⟨∅, []⟩ "k400" rfl,
   (get_node_empty_and_coverage H6).2 s6 "node3" "k400"⟩

/-- C7: `get_node` is deterministic — on a fixed ring, keys with equal hash
positions resolve to the same node, the result depending only on the ring
contents and the key's hash. -/
theorem get_node_deterministic (H : String → Int) (s : SimpleConsistentHash)
    (k1 k2 : String) (h : _hash H k1 = _hash H k2) :
    get_node H s k1 = get_node H s k2 := by
  simp only [get_node, h]

/-- C7 witness: two distinct keys with equal hash position resolve alike on the
spec's concrete ring. -/
theorem get_node_deterministic_witness :
    _hash H6 "kx" = _hash H6 "ky" ∧ get_node H6 s6 "kx" = get_node H6 s6 "ky" :=
  ⟨by decide, get_node_deterministic H6 s6 "kx" "ky" (by decide)⟩

/-- C9: `_hash` is a total deterministic function into `[0, 1000)`: for every
string it returns a position `p` with `0 ≤ p < 1000`, and equal inputs give
equal outputs. -/
theorem hash_total_bounded_deterministic (H : String → Int) (k1 k2 : String)
    (h : k1 = k2) :
    0 ≤ _hash H k1 ∧ _hash H k1 < 1000 ∧ _hash H k1 = _hash H k2 := by
  subst h
  exact ⟨Int.emod_nonneg _ (by norm_num), Int.emod_lt_of_pos _ (by norm_num), rfl⟩

/-- C9 witness: the bound evaluated at a concrete hash function and key. -/
theorem hash_total_bounded_deterministic_witness :
    0 ≤ _hash H6 "k400" ∧ _hash H6 "k400" < 1000 ∧ _hash H6 "k400" = _hash H6 "k400" :=
  hash_total_bounded_deterministic H6 "k400" "k400" rfl

/-- C2 (amended): `remove_node n` on a state not tracking `n` raises, leaves
the node set unchanged, and leaves the ring unchanged PROVIDED none of `n`'s
three virtual positions is currently occupied; the pops run before the
membership check, so colliding occupied positions are deleted even though the
call raises. -/
theorem remove_node_absent (H : String → Int) (s : SimpleConsistentHash)
    (n : String) (hn : n ∉ s.nodes) :
    (remove_node H s n).2 = true ∧
    (remove_node H s n).1.nodes = s.nodes ∧
    ((∀ i < 3, dictLookup s.hash_ring (_hash H (vnode n i)) = none) →
      (remove_node H s n).1.hash_ring = s.hash_ring) := by
  refine ⟨by simp only [remove_node, if_neg hn], by simp only [remove_node, if_neg hn], ?_⟩
  intro hcol
  simp only [remove_node, if_neg hn]
  rw [dictPop_of_not_mem _ _ ((dictLookup_eq_none_iff _ _).1 (hcol 0 (by norm_num)))]
  rw [dictPop_of_not_mem _ _ ((dictLookup_eq_none_iff _ _).1 (hcol 1 (by norm_num)))]
  exact dictPop_of_not_mem _ _ ((dictLookup_eq_none_iff _ _).1 (hcol 2 (by norm_num)))

/-- C2 counterexample: removing the untracked node `ghost`, whose virtual
position 12 collides with tracked node `A`'s occupied position 12, raises but
mutates the ring (position 12 is popped before the raise). -/
theorem remove_node_absent_mutates :
    "ghost" ∉ sGhost.nodes ∧ (remove_node Hghost sGhost "ghost").2 = true ∧
    (remove_node Hghost sGhost "ghost").1.hash_ring ≠ sGhost.hash_ring := by
  decide

/-- C2 witness: on the spec's concrete ring, removing the collision-free
untracked node `ghost` raises and changes neither the node set nor the ring. -/
theorem remove_node_absent_witness :
    "ghost" ∉ s6.nodes ∧ (remove_node H6 s6 "ghost").2 = true ∧
    (remove_node H6 s6 "ghost").1.nodes = s6.nodes ∧
    (remove_node H6 s6 "ghost").1.hash_ring = s6.hash_ring := by
  have h := remove_node_absent H6 s6 "ghost" (by decide)
  exact ⟨by decide, h.1, h.2.1, h.2.2 (by decide)⟩

/-- C8 (amended): every duplicate `add_node n` (with `n` already tracked)
leaves the node set unchanged; the whole state, ring included, is moreover
left unchanged PROVIDED each of `n`'s three virtual positions currently maps
to `n` (as holds right after `add_node n`).  When a later node overwrote one
of those positions, the duplicate add re-claims it and changes the ring. -/
theorem add_node_duplicate_noop (H : String → Int) (s : SimpleConsistentHash)
    (n : String) (hn : n ∈ s.nodes) :
    (add_node H s n).nodes = s.nodes ∧
    ((∀ i < 3, dictLookup s.hash_ring (_hash H (vnode n i)) = some n) →
      add_node H s n = s) := by
  constructor
  · show insert n s.nodes = s.nodes
    exact Finset.insert_eq_self.2 hn
  · intro hr
    obtain ⟨nodes, ring⟩ := s
    have h0 := dictInsert_of_lookup_some _ _ _ (hr 0 (by norm_num))
    have h1 := dictInsert_of_lookup_some _ _ _ (hr 1 (by norm_num))
    have h2 := dictInsert_of_lookup_some _ _ _ (hr 2 (by norm_num))
    simp only [add_node] at h0 h1 h2 ⊢
    rw [h0, h1, h2]
    simp [Finset.insert_eq_self.2 hn]

/-- C8 counterexample: `A` is tracked in `sDup`, but its position 5 is owned by
`B`, so the duplicate `add_node A` overwrites it and the ring differs from
what it was before the duplicate call. -/
theorem add_node_duplicate_changes_ring :
    "A" ∈ sDup.nodes ∧ (add_node Hdup sDup "A").hash_ring ≠ sDup.hash_ring := by
  decide

/-- C8 witness: the node set survives the duplicate `add_node A` even in the
collision state `sDup` (where the ring changes), and duplicating
`add_node node1` right after the initial seeding leaves the spec's concrete
state entirely unchanged. -/
theorem add_node_duplicate_noop_witness :
    (add_node Hdup sDup "A").nodes = sDup.nodes ∧
    (add_node H6 s6 "node1").nodes = s6.nodes ∧ add_node H6 s6 "node1" = s6 :=
  ⟨(add_node_duplicate_noop Hdup sDup "A" (by decide)).1,
   (add_node_duplicate_noop H6 s6 "node1" (by decide)).1,
   (add_node_duplicate_noop H6 s6 "node1" (by decide)).2 (by decide)⟩

/-- Inserting a fresh key appends the binding at the end of the dict. -/
theorem dictInsert_eq_append (d : Dict) (k : Int) (v : String)
    (h : k ∉ dictKeys d) : dictInsert d k v = d ++ [(k, v)] := by
  induction d with
  | nil => simp [dictInsert]
  | cons e rest ih =>
    obtain ⟨k', v'⟩ := e
    simp only [dictKeys, List.map_cons, List.mem_cons, not_or] at h
    have hk : ¬k' = k := fun hh => h.1 hh.symm
    simp [dictInsert, hk, ih (by simpa [dictKeys] using h.2)]

/-- Three inserts of fresh keys followed by three pops of the same keys cancel
out, whatever the overlaps among the three keys themselves. -/
theorem dict_insert_pop_roundtrip (p0 p1 p2 : Int) (v : String) :
    dictPop (dictPop (dictPop
      (dictInsert (dictInsert [(p0, v)] p1 v) p2 v) p0) p1) p2 = [] := by
  by_cases h10 : p1 = p0
  · subst h10
    by_cases h20 : p2 = p1
    · subst h20
      simp [dictInsert, dictPop]
    · simp [dictInsert, dictPop, h20, Ne.symm h20]
  · by_cases h20 : p2 = p0
    · subst h20
      simp [dictInsert, dictPop, h10, Ne.symm h10]
    · by_cases h21 : p2 = p1
      · subst h21
        simp [dictInsert, dictPop, h10, Ne.symm h10]
      · simp [dictInsert, dictPop, h10, Ne.symm h10, h20, Ne.symm h20,
          h21, Ne.symm h21]

/-- The full ring round trip: inserting a node's three positions (all fresh in
`d`) and popping them again restores `d`. -/
theorem dict_roundtrip (d : Dict) (p0 p1 p2 : Int) (v : String)
    (h0 : p0 ∉ dictKeys d) (h1 : p1 ∉ dictKeys d) (h2 : p2 ∉ dictKeys d) :
    dictPop (dictPop (dictPop
      (dictInsert (dictInsert (dictInsert d p0 v) p1 v) p2 v) p0) p1) p2 = d := by
  rw [dictInsert_eq_append d p0 v h0]
  rw [dictInsert_append_right d [(p0, v)] p1 v h1]
  rw [dictInsert_append_right d (dictInsert [(p0, v)] p1 v) p2 v h2]
  rw [dictPop_append_right d _ p0 h0, dictPop_append_right d _ p1 h1,
    dictPop_append_right d _ p2 h2]
  rw [dict_insert_pop_roundtrip]
  simp

/-- C4: on a ring whose node set is `{A, B}`, adding a fresh node `C` none of
whose three virtual positions collides with an occupied position, then removing
`C`, restores exactly the previous ring contents and node set (and the removal
does not raise). -/
theorem add_remove_roundtrip (H : String → Int) (s : SimpleConsistentHash)
    (A B C : String) (hAB : s.nodes = {A, B}) (hCA : C ≠ A) (hCB : C ≠ B)
    (hcol : ∀ i < 3, dictLookup s.hash_ring (_hash H (vnode C i)) = none) :
    (remove_node H (add_node H s C) C).1 = s ∧
    (remove_node H (add_node H s C) C).2 = false := by
  have hCn : C ∉ s.nodes := by rw [hAB]; simp [hCA, hCB]
  have h0 := (dictLookup_eq_none_iff _ _).1 (hcol 0 (by norm_num))
  have h1 := (dictLookup_eq_none_iff _ _).1 (hcol 1 (by norm_num))
  have h2 := (dictLookup_eq_none_iff _ _).1 (hcol 2 (by norm_num))
  have hring := dict_roundtrip s.hash_ring _ _ _ C h0 h1 h2
  constructor
  · simp only [remove_node, add_node]
    rw [if_pos (Finset.mem_insert_self C s.nodes)]
    rw [hring, Finset.erase_insert hCn]
  · simp only [remove_node, add_node]
    rw [if_pos (Finset.mem_insert_self C s.nodes)]

/-- C4 witness: adding and removing `node3` on the spec's concrete two-node
ring restores it exactly. -/
theorem add_remove_roundtrip_witness :
    (remove_node H6 (add_node H6 s6 "node3") "node3").1 = s6 ∧
    (remove_node H6 (add_node H6 s6 "node3") "node3").2 = false :=
  add_remove_roundtrip H6 s6 "node1" "node2" "node3"
    (by decide) (by decide) (by decide) (by decide)

/-- `add_node` preserves the ring invariant. -/
theorem ringInv_add (H : String → Int) (s : SimpleConsistentHash) (n : String)
    (hinv : RingInv H s) : RingInv H (add_node H s n) := by
  obtain ⟨hnd, hent⟩ := hinv
  constructor
  · exact nodup_keys_dictInsert _ _ _
      (nodup_keys_dictInsert _ _ _ (nodup_keys_dictInsert _ _ _ hnd))
  · intro e he
    simp only [add_node] at he
    rcases mem_dictInsert _ _ _ _ he with rfl | he
    · exact ⟨Finset.mem_insert_self _ _, 2, by norm_num, rfl⟩
    rcases mem_dictInsert _ _ _ _ he with rfl | he
    · exact ⟨Finset.mem_insert_self _ _, 1, by norm_num, rfl⟩
    rcases mem_dictInsert _ _ _ _ he with rfl | he
    · exact ⟨Finset.mem_insert_self _ _, 0, by norm_num, rfl⟩
    · obtain ⟨hm, i, hi, hp⟩ := hent e he
      exact ⟨Finset.mem_insert_of_mem hm, i, hi, hp⟩

/-- `remove_node` (raising or not) preserves the ring invariant. -/
theorem ringInv_remove (H : String → Int) (s : SimpleConsistentHash) (n : String)
    (hinv : RingInv H s) : RingInv H (remove_node H s n).1 := by
  obtain ⟨hnd, hent⟩ := hinv
  have hnd0 : (dictKeys (dictPop s.hash_ring (_hash H (vnode n 0)))).Nodup :=
    (dictKeys_dictPop_sublist _ _).nodup hnd
  have hnd1 : (dictKeys (dictPop (dictPop s.hash_ring (_hash H (vnode n 0)))
      (_hash H (vnode n 1)))).Nodup :=
    (dictKeys_dictPop_sublist _ _).nodup hnd0
  have hnd2 : (dictKeys (dictPop (dictPop (dictPop s.hash_ring
      (_hash H (vnode n 0))) (_hash H (vnode n 1))) (_hash H (vnode n 2)))).Nodup :=
    (dictKeys_dictPop_sublist _ _).nodup hnd1
  have hmem : ∀ e ∈ dictPop (dictPop (dictPop s.hash_ring (_hash H (vnode n 0)))
      (_hash H (vnode n 1))) (_hash H (vnode n 2)),
      e ∈ s.hash_ring ∧ e.1 ≠ _hash H (vnode n 0) ∧
      e.1 ≠ _hash H (vnode n 1) ∧ e.1 ≠ _hash H (vnode n 2) := by
    intro e he
    have c2 := mem_dictPop_ne _ _ _ hnd1 he
    have c1 := mem_dictPop_ne _ _ _ hnd0 c2.1
    have c0 := mem_dictPop_ne _ _ _ hnd c1.1
    exact ⟨c0.1, c0.2, c1.2, c2.2⟩
  by_cases hn : n ∈ s.nodes
  · simp only [remove_node, if_pos hn]
    refine ⟨hnd2, ?_⟩
    intro e he
    obtain ⟨hering, hne0, hne1, hne2⟩ := hmem e he
    obtain ⟨hm, i, hi, hp⟩ := hent e hering
    refine ⟨Finset.mem_erase.2 ⟨?_, hm⟩, i, hi, hp⟩
    intro hveq
    rw [hveq] at hp
    interval_cases i
    · exact hne0 hp
    · exact hne1 hp
    · exact hne2 hp
  · simp only [remove_node, if_neg hn]
    exact ⟨hnd2, fun e he => hent e (hmem e he).1⟩

/-- Every reachable state satisfies the ring invariant. -/
theorem reachable_ringInv (H : String → Int) (s : SimpleConsistentHash)
    (h : Reachable H s) : RingInv H s := by
  induction h with
  | init =>
    refine ⟨List.nodup_nil, ?_⟩
    intro e he
    simp at he
  | add n _ ih => exact ringInv_add _ _ _ ih
  | remove n _ ih => exact ringInv_remove _ _ _ ih

/-- C10: in every reachable state, every node identifier stored as a value in
the ring is a member of the node set — the ring never points to an
unregistered node. -/
theorem ring_values_registered (H : String → Int) (s : SimpleConsistentHash)
    (h : Reachable H s) :
    ∀ p n, dictLookup s.hash_ring p = some n → n ∈ s.nodes := by
  intro p n hl
  exact ((reachable_ringInv H s h).2 (p, n) (dictLookup_mem _ _ _ hl)).1

/-- C10 witness: position 12 of the spec's concrete ring stores `node1`, which
is indeed registered. -/
theorem ring_values_registered_witness : "node1" ∈ s6.nodes :=
  ring_values_registered H6 s6
    (Reachable.add "node2" (Reachable.add "node1" Reachable.init))
    12 "node1" (by decide)

/-- C3 (amended): in every reachable state, a non-empty ring implies a
non-empty node set; the converse direction of the spec's "iff" fails when
cross-node virtual-position collisions let a removal empty the ring while
nodes remain registered. -/
theorem ring_nonempty_imp_nodes_nonempty (H : String → Int)
    (s : SimpleConsistentHash) (h : Reachable H s)
    (hr : s.hash_ring ≠ []) : s.nodes.Nonempty := by
  obtain ⟨_, hent⟩ := reachable_ringInv H s h
  cases he : s.hash_ring with
  | nil => exact absurd he hr
  | cons e rest =>
    exact ⟨e.2, (hent e (by rw [he]; exact List.mem_cons_self _ _)).1⟩

/-- C3 counterexample: `sCollide` is reachable (add `A`, add `B` overwriting
all of `A`'s positions, remove `A`), yet its node set `{B}` is non-empty while
its ring is empty — the claimed "iff" fails. -/
theorem ring_nodes_iff_fails :
    Reachable Hcollide sCollide ∧
    ¬(sCollide.hash_ring ≠ [] ↔ sCollide.nodes.Nonempty) :=
  ⟨Reachable.remove "A" (Reachable.add "B" (Reachable.add "A" Reachable.init)),
   by decide⟩

/-- C3 witness: the amended implication applied to the concrete non-empty
ring. -/
theorem ring_nonempty_imp_nodes_nonempty_witness : s6.nodes.Nonempty :=
  ring_nonempty_imp_nodes_nonempty H6 s6
    (Reachable.add "node2" (Reachable.add "node1" Reachable.init)) (by decide)

/-- C6: for any run of the hash producing positions `node1 ↦ {12, 340, 780}`
and `node2 ↦ {55, 410, 920}`, on the ring seeded with `["node1", "node2"]` any
key hashing to 400 resolves to `node2` (smallest occupied position `≥ 400` is
410) and any key hashing to 950 wraps around to position 12's owner `node1`. -/
theorem concrete_scenario (H : String → Int) (k400 k950 : String)
    (h10 : _hash H (vnode "node1" 0) = 12) (h11 : _hash H (vnode "node1" 1) = 340)
    (h12 : _hash H (vnode "node1" 2) = 780) (h20 : _hash H (vnode "node2" 0) = 55)
    (h21 : _hash H (vnode "node2" 1) = 410) (h22 : _hash H (vnode "node2" 2) = 920)
    (hk4 : _hash H k400 = 400) (hk9 : _hash H k950 = 950) :
    get_node H (construct H ["node1", "node2"]) k400 = some "node2" ∧
    get_node H (construct H ["node1", "node2"]) k950 = some "node1" := by
  have hring : (construct H ["node1", "node2"]).hash_ring =
      [(12, "node1"), (340, "node1"), (780, "node1"),
       (55, "node2"), (410, "node2"), (920, "node2")] := by
    simp only [construct, List.foldl_cons, List.foldl_nil, add_node]
    rw [h10, h11, h12, h20, h21, h22]
    decide
  have hne : (construct H ["node1", "node2"]).hash_ring ≠ [] := by
    rw [hring]
    simp
  have hemp := hash_ring_isEmpty_false _ hne
  constructor
  · rw [get_node_unfold H _ k400 hemp, hring, hk4]
    decide
  · rw [get_node_unfold H _ k950 hemp, hring, hk9]
    decide

/-- C6 witness: the scenario evaluated at the concrete hash table `H6` and the
probe keys `k400`, `k950`. -/
theorem concrete_scenario_witness :
    get_node H6 (construct H6 ["node1", "node2"]) "k400" = some "node2" ∧
    get_node H6 (construct H6 ["node1", "node2"]) "k950" = some "node1" :=
  concrete_scenario H6 "k400" "k950" (by decide) (by decide) (by decide)
    (by decide) (by decide) (by decide) (by decide) (by decide)
